import Mathlib

set_option maxHeartbeats 1000000

/-! Verification development for the client text-to-speech pipeline implemented in
`src/lib/clientTts.ts`.

Modelling conventions (shallow embedding):
* JavaScript strings are lists of UTF-16 code units (`JsStr := List Nat`); the
  source's regular expressions carry no `u` flag, so they operate on code units,
  which this model mirrors.
* JavaScript numbers are rationals; `Math.floor` is `Int.floor`.
* The four ONNX inference modules are opaque parameters (`Modules`), as are the
  platform primitives `String.prototype.normalize("NFKC")` (`normNFKC` field) and
  the `Math.random`-driven Box-Muller draws of the latent sampler (`randn`).
* Orchestration functions additionally record a log of inference-module
  invocations (`MCall`) so that statements about which modules run are expressible.
-/

abbrev JsStr := List Nat

/-- UTF-16 code units of a Lean string whose characters are all in the BMP
(only used for ASCII literals appearing in the source). -/
def strUnits (s : String) : JsStr := s.data.map Char.toNat

/-- Membership in the character class `\s` of JavaScript regular expressions,
which is also the set of characters removed by `String.prototype.trim`. -/
def isJsWs (c : Nat) : Bool :=
  decide (c = 9 ∨ c = 10 ∨ c = 11 ∨ c = 12 ∨ c = 13 ∨ c = 32 ∨ c = 160 ∨ c = 5760 ∨
    (8192 ≤ c ∧ c ≤ 8202) ∨ c = 8232 ∨ c = 8233 ∨ c = 8239 ∨ c = 8287 ∨
    c = 12288 ∨ c = 65279)

/-- JavaScript `String.prototype.trim`. -/
def jsTrim (s : JsStr) : JsStr :=
  ((s.dropWhile isJsWs).reverse.dropWhile isJsWs).reverse

/-- The slice `s[a..b)` of a string (used for the pieces produced by `split`). -/
def jsSlice (s : JsStr) (a b : Nat) : JsStr := (s.drop a).take (b - a)

/-- JavaScript `String.prototype.codePointAt(j)` (for `j < s.length`): a high
surrogate followed by a low surrogate yields the combined code point, any other
unit yields itself. -/
def codePointAt (s : JsStr) (j : Nat) : Nat :=
  let c := s.getD j 0
  if 55296 ≤ c ∧ c ≤ 56319 ∧ j + 1 < s.length then
    let c2 := s.getD (j + 1) 0
    if 56320 ≤ c2 ∧ c2 ≤ 57343 then (c - 55296) * 1024 + (c2 - 56320) + 65536 else c
  else c

/-- Number of Unicode code points of a UTF-16 string (a surrogate pair counts
once); this is the "code-point length" the specification speaks about. -/
def codePointCount : JsStr → Nat
  | [] => 0
  | [_] => 1
  | c :: c2 :: rest =>
    if 55296 ≤ c ∧ c ≤ 56319 ∧ 56320 ≤ c2 ∧ c2 ≤ 57343 then codePointCount rest + 1
    else codePointCount (c2 :: rest) + 1

/-- JavaScript `Math.max(...l)` for a list of naturals (the source only spreads
non-empty lists into `Math.max`, so the base value is never observed). -/
def jsMaxNat (l : List Nat) : Nat := l.foldl max 0

/-- JavaScript `Math.max(...l)` for a list of rationals; for the non-empty lists
the source passes, the result is the maximum element. -/
def jsMaxQ (l : List Rat) : Rat := l.foldl max (l.headD 0)

/-- One row of `lengthToMask` (shared by `UnicodeProcessor.lengthToMask` and
`TextToSpeech.lengthToMask` in the source): a row of `maxLen` zeros whose first
`min len maxLen` positions are set to `1.0`. -/
def lengthToMaskRow (len maxLen : Int) : List Rat :=
  (List.range maxLen.toNat).map (fun (j : Nat) => if (j : Int) < min len maxLen then (1 : Rat) else 0)

/-- The `lengthToMask` helper of the source (both callers pass an explicit
`maxLen`, so the `?? Math.max(...lengths)` default is never taken). -/
def lengthToMask (lengths : List Int) (maxLen : Int) : List (List (List Rat)) :=
  lengths.map (fun len => [lengthToMaskRow len maxLen])

/-- Number of entries equal to `1.0` in a mask row. -/
def countOnes (l : List Rat) : Nat := l.count 1

/-- The text processor of the source: the `unicode_indexer.json` table together
with the platform normalization primitive `String.prototype.normalize("NFKC")`,
which is kept opaque. -/
structure UnicodeProcessor where
  indexer : List Int
  normNFKC : JsStr → JsStr

/-- `UnicodeProcessor.call`: normalize every input, index it unit by unit
(`for (j = 0; j < text.length; j++) ... text.codePointAt(j)`), pad rows with `0`
to `maxLen`, and build the mask from the UTF-16 lengths. -/
def UnicodeProcessor.call (p : UnicodeProcessor) (textList : List JsStr) :
    List (List Int) × List (List (List Rat)) :=
  let processedTexts := textList.map p.normNFKC
  let textIdsLengths := processedTexts.map List.length
  let maxLen := jsMaxNat textIdsLengths
  let textIds := processedTexts.map (fun t =>
    (List.range maxLen).map (fun j =>
      if j < t.length then
        (if codePointAt t j < p.indexer.length then p.indexer.getD (codePointAt t j) 0 else -1)
      else 0))
  let textMask := lengthToMask (textIdsLengths.map Int.ofNat) (Int.ofNat maxLen)
  (textIds, textMask)

/-- The wav length `Math.floor(d * sampleRate)` used by `sampleNoisyLatent`. -/
def wavLengthOf (d : Rat) (sampleRate : Nat) : Int := Int.floor (d * sampleRate)

/-- The latent length `Math.floor((wavLen + chunkSize - 1) / chunkSize)` used by
`sampleNoisyLatent` (JavaScript division is exact rational division here). -/
def latentLenFor (wavLen : Int) (chunkSize : Nat) : Int :=
  Int.floor (((wavLen : Rat) + chunkSize - 1) / chunkSize)

abbrev T3 := List (List (List Rat))

/-- `TextToSpeech.sampleNoisyLatent`: Gaussian noise of shape
`[bsz, latentDim * chunkCompress, latentLen]` (the Box-Muller draws are the
opaque `randn`), masked elementwise by the latent mask built from the per-item
latent lengths. Returns `(x_t, latent_mask)`. -/
def sampleNoisyLatent (randn : Nat → Nat → Nat → Rat) (duration : List Rat)
    (sampleRate baseChunkSize chunkCompress latentDim : Nat) : T3 × T3 :=
  let bsz := duration.length
  let maxDur := jsMaxQ duration
  let wavLenMax := wavLengthOf maxDur sampleRate
  let wavLengths := duration.map (fun d => wavLengthOf d sampleRate)
  let chunkSize := baseChunkSize * chunkCompress
  let latentLen := latentLenFor wavLenMax chunkSize
  let latentDimVal := latentDim * chunkCompress
  let xtRaw := (List.range bsz).map (fun b =>
    (List.range latentDimVal).map (fun d =>
      (List.range latentLen.toNat).map (fun t => randn b d t)))
  let latentLengths := wavLengths.map (fun len => latentLenFor len chunkSize)
  let latentMask := lengthToMask latentLengths latentLen
  let xt := xtRaw.mapIdx (fun b batch => batch.map (fun row =>
    row.mapIdx (fun t v => v * (((latentMask.getD b []).getD 0 []).getD t 0))))
  (xt, latentMask)

/-- Length of the maximal whitespace run of `s` starting at position `i` (the
greedy extent of `\s+` and `\s*` in the source's regular expressions). -/
def wsRunLenGo (s : JsStr) : Nat → Nat → Nat
  | 0, _ => 0
  | fuel + 1, i => if i < s.length ∧ isJsWs (s.getD i 0) then wsRunLenGo s fuel (i + 1) + 1 else 0

def wsRunLen (s : JsStr) (i : Nat) : Nat := wsRunLenGo s (s.length + 1 - i) i

/-- Match of the paragraph separator `/\n\s*\n+/` starting at position `i`:
a newline at `i`, and the greedy match extends to the last newline of the
following whitespace run (backtracking of `\s*` against `\n+`). Returns the
match length. -/
def matchBlankSep (s : JsStr) (i : Nat) : Option Nat :=
  if i < s.length ∧ s.getD i 0 = 10 then
    let r := wsRunLen s (i + 1)
    match ((List.range r).filter (fun k => s.getD (i + 1 + k) 0 == 10)).getLast? with
    | some k => some (k + 2)
    | none => none
  else none

/-- The closed list of abbreviations protected by the sentence-splitting regular
expression of `chunkText`. -/
def abbrevStrs : List String :=
  ["Mr.", "Mrs.", "Ms.", "Dr.", "Prof.", "Sr.", "Jr.", "Ph.D.", "etc.", "e.g.",
   "i.e.", "vs.", "Inc.", "Ltd.", "Co.", "Corp.", "St.", "Ave.", "Blvd."]

def abbrevList : List JsStr := abbrevStrs.map strUnits

/-- The negative lookbehind `(?<!Mr\.|Mrs\.|...)`: the text before position `i`
ends with one of the listed abbreviations. -/
def endsWithAbbrevAt (s : JsStr) (i : Nat) : Bool :=
  abbrevList.any (fun a => a.isSuffixOf (s.take i))

def isUpperAscii (c : Nat) : Bool := decide (65 ≤ c ∧ c ≤ 90)

/-- Word characters of the regular-expression class `\w` (for `\b`). -/
def isWordChar (c : Nat) : Bool :=
  decide ((48 ≤ c ∧ c ≤ 57) ∨ (65 ≤ c ∧ c ≤ 90) ∨ (97 ≤ c ∧ c ≤ 122) ∨ c = 95)

/-- The negative lookbehind `(?<!\b[A-Z]\.)`: the text before position `i` ends
with a period preceded by a single capital letter at a word boundary. -/
def initialAt (s : JsStr) (i : Nat) : Bool :=
  decide (2 ≤ i ∧ isUpperAscii (s.getD (i - 2) 0) = true ∧ s.getD (i - 1) 0 = 46 ∧
    (i = 2 ∨ isWordChar (s.getD (i - 3) 0) = false))

/-- Match of the sentence separator
`/(?<!abbrev)(?<!\b[A-Z]\.)(?<=[.!?])\s+/` starting at position `i`. -/
def matchSentenceSep (s : JsStr) (i : Nat) : Option Nat :=
  if i < s.length ∧ isJsWs (s.getD i 0) = true ∧ 1 ≤ i ∧
      (s.getD (i - 1) 0 = 46 ∨ s.getD (i - 1) 0 = 33 ∨ s.getD (i - 1) 0 = 63) ∧
      endsWithAbbrevAt s i = false ∧ initialAt s i = false then
    some (wsRunLen s i)
  else none

/-- Leftmost scan of `String.prototype.split(regex)`: pieces are the substrings
between matches; also returns the list of positions where a match fired. All
matchers used return positive lengths, so the `max 1` in the recursion never
changes the value. -/
def jsSplitFromGo (matchAt : JsStr → Nat → Option Nat) (s : JsStr) :
    Nat → Nat → Nat → List JsStr × List Nat
  | 0, start, _ => ([jsSlice s start s.length], [])
  | fuel + 1, start, i =>
    if i < s.length then
      match matchAt s i with
      | some len =>
        let rest := jsSplitFromGo matchAt s fuel (i + len.max 1) (i + len.max 1)
        (jsSlice s start i :: rest.1, i :: rest.2)
      | none => jsSplitFromGo matchAt s fuel start (i + 1)
    else ([jsSlice s start s.length], [])

def jsSplitFrom (matchAt : JsStr → Nat → Option Nat) (s : JsStr) (start i : Nat) :
    List JsStr × List Nat :=
  jsSplitFromGo matchAt s (s.length + 1 - i) start i

/-- `s.split(regex)` modelled by the leftmost scan. -/
def jsSplit (matchAt : JsStr → Nat → Option Nat) (s : JsStr) : List JsStr :=
  (jsSplitFrom matchAt s 0 0).1

/-- The positions at which the split's regular expression matched (where the
string is split). -/
def jsSplitPoints (matchAt : JsStr → Nat → Option Nat) (s : JsStr) : List Nat :=
  (jsSplitFrom matchAt s 0 0).2

/-- `chunkText` of the source: split into paragraphs on blank lines, split each
paragraph into sentences, and greedily pack sentences into chunks of at most
`maxLen` characters (the façade passes the default `maxLen = 300`). -/
def chunkText (text : JsStr) (maxLen : Nat) : List JsStr :=
  let paragraphs := (jsSplit matchBlankSep (jsTrim text)).filter
    (fun p => decide (0 < (jsTrim p).length))
  paragraphs.foldl (fun chunks paragraph =>
    let trimmed := jsTrim paragraph
    if trimmed.length = 0 then chunks
    else
      let sentences := jsSplit matchSentenceSep trimmed
      let packed := sentences.foldl (fun acc sentence =>
        if acc.2.length + sentence.length + 1 ≤ maxLen then
          (acc.1, acc.2 ++ (if acc.2.length ≠ 0 then [32] else []) ++ sentence)
        else
          (if acc.2.length ≠ 0 then acc.1 ++ [jsTrim acc.2] else acc.1, sentence))
        (chunks, ([] : JsStr))
      if packed.2.length ≠ 0 then packed.1 ++ [jsTrim packed.2] else packed.1) []

/-- A voice-style tensor as loaded from `voice_styles/{id}.json`: declared
dimensions plus flattened float data (the data is only passed through to the
inference modules). -/
structure StyleTensor where
  dims : List Nat
  data : List Rat

/-- The `Style` pair of the source (`style_ttl` and `style_dp` tensors). -/
structure Style where
  ttl : StyleTensor
  dp : StyleTensor

/-- Input record of the vector-estimator module (`vectorEstOrt.run`). -/
structure EstIn where
  noisyLatent : T3
  textEmb : List Rat
  styleTtl : StyleTensor
  latentMask : T3
  textMask : T3
  currentStep : Rat
  totalStep : Rat

/-- The four opaque ONNX inference modules. Outputs are modelled as the data the
source reads from them: `duration` as a float vector, `text_emb` as an opaque
flat tensor, `denoised_latent` as its flat data (the source reshapes it), and
`wav_tts` as a float vector. -/
structure Modules where
  durationPredictor : List (List Int) → StyleTensor → List (List (List Rat)) → List Rat
  textEncoder : List (List Int) → StyleTensor → List (List (List Rat)) → List Rat
  vectorEstimator : EstIn → List Rat
  vocoder : T3 → List Rat

/-- A record of one inference-module invocation, in invocation order. -/
inductive MCall where
  | dp : MCall
  | enc : MCall
  | est : Nat → MCall
  | voc : MCall
deriving DecidableEq, Repr

/-- The `tts.json` configuration (`ae` section). -/
structure AeConfig where
  sample_rate : Nat
  base_chunk_size : Nat

/-- The `tts.json` configuration (`ttl` section). -/
structure TtlConfig where
  chunk_compress_factor : Nat
  latent_dim : Nat

structure TtsConfig where
  ae : AeConfig
  ttl : TtlConfig

/-- The `TextToSpeech` object: configuration, text processor, the four modules,
and the opaque random source feeding `sampleNoisyLatent`. -/
structure TextToSpeech where
  cfgs : TtsConfig
  textProcessor : UnicodeProcessor
  mods : Modules
  randn : Nat → Nat → Nat → Rat

def TextToSpeech.sampleRate (tts : TextToSpeech) : Nat := tts.cfgs.ae.sample_rate

/-- One iteration of the denoising loop: run the vector estimator on the current
`x_t` and rebuild `x_t` from the returned flat data with shape
`[bsz, latentDim, latentLen]` (missing entries become `0`, as `?? 0` does). -/
def reshapeFlat (b d l : Nat) (flat : List Rat) : T3 :=
  (List.range b).map (fun bi =>
    (List.range d).map (fun di =>
      (List.range l).map (fun ti => flat.getD (bi * (d * l) + di * l + ti) 0)))

def denoiseStep (est : EstIn → List Rat) (textEmb : List Rat) (styleTtl : StyleTensor)
    (latentMask textMask : T3) (bsz : Nat) (totalStep : Rat) (xt : T3) (step : Nat) : T3 :=
  let latentDim := (xt.headD []).length
  let latentLen := ((xt.headD []).headD []).length
  let denoisedData := est ⟨xt, textEmb, styleTtl, latentMask, textMask, (step : Rat), totalStep⟩
  reshapeFlat bsz latentDim latentLen denoisedData

/-- Output of `TextToSpeech.infer`, instrumented with the list of latents after
each denoising step (head is the initial latent) and the module-call log. -/
structure InferOut where
  wav : List Rat
  duration : List Rat
  latents : List T3
  log : List MCall

/-- `TextToSpeech.infer`: tokenize, predict durations (divided by `speed`),
encode text, sample the initial latent, run the denoising loop for
`step = 0, 1, …, totalStep − 1`, and vocode the final latent. -/
def TextToSpeech.infer (tts : TextToSpeech) (textList : List JsStr) (style : Style)
    (totalStep : Int) (speed : Rat) : InferOut :=
  let bsz := textList.length
  let pc := tts.textProcessor.call textList
  let durationRaw := tts.mods.durationPredictor pc.1 style.dp pc.2
  let duration := durationRaw.map (fun x => x / speed)
  let textEmb := tts.mods.textEncoder pc.1 style.ttl pc.2
  let mc := sampleNoisyLatent tts.randn duration tts.sampleRate tts.cfgs.ae.base_chunk_size
    tts.cfgs.ttl.chunk_compress_factor tts.cfgs.ttl.latent_dim
  let n := totalStep.toNat
  let stepf := denoiseStep tts.mods.vectorEstimator textEmb style.ttl mc.2 pc.2 bsz (totalStep : Rat)
  let latents := (List.range n).scanl stepf mc.1
  let xtF := (List.range n).foldl stepf mc.1
  let wav := tts.mods.vocoder xtF
  { wav := wav, duration := duration, latents := latents,
    log := [MCall.dp, MCall.enc] ++ (List.range n).map MCall.est ++ [MCall.voc] }

/-- Result record of `TextToSpeech.call` (`{wav, duration}` in the source). -/
structure CallRes where
  wav : List Rat
  duration : List Rat
deriving DecidableEq

/-- `TextToSpeech.call`: reject multi-speaker styles, chunk the text, synthesize
each chunk, and concatenate with inter-chunk silence; `wavCat.length === 0`
selects the first branch, which overwrites `durCat` rather than accumulating.
Returns the result (or the thrown error) with the module-call log. -/
def TextToSpeech.call (tts : TextToSpeech) (text : JsStr) (style : Style)
    (totalStep : Int) (speed silenceDuration : Rat) : Except String CallRes × List MCall :=
  if style.ttl.dims.headD 0 ≠ 1 then
    (Except.error "Single speaker text to speech only supports single style", [])
  else
    let textList := chunkText text 300
    let acc := textList.foldl (fun (acc : List Rat × Rat × List MCall) chunk =>
      let out := tts.infer [chunk] style totalStep speed
      if acc.1.length = 0 then
        (out.wav, out.duration.getD 0 0, acc.2.2 ++ out.log)
      else
        let silenceLen := (Int.floor (silenceDuration * (tts.sampleRate : Rat))).toNat
        (acc.1 ++ List.replicate silenceLen 0 ++ out.wav,
         acc.2.1 + out.duration.getD 0 0 + silenceDuration,
         acc.2.2 ++ out.log))
      ([], 0, [])
    (Except.ok ⟨acc.1, [acc.2.1]⟩, acc.2.2)

/-- Two little-endian bytes of `DataView.setUint16(·, v, true)` (the value is
converted to an unsigned 16-bit integer first). -/
def u16le (v : Nat) : List Nat := [v % 65536 % 256, v % 65536 / 256]

/-- Four little-endian bytes of `DataView.setUint32(·, v, true)`. -/
def u32le (v : Nat) : List Nat :=
  [v % 4294967296 % 256, v % 4294967296 / 256 % 256,
   v % 4294967296 / 65536 % 256, v % 4294967296 / 16777216 % 256]

/-- Two little-endian bytes of `DataView.setInt16(·, v, true)` (two's
complement). -/
def i16le (v : Int) : List Nat := u16le (v % 65536).toNat

/-- `Math.max(-1, Math.min(1, s))`. -/
def clampQ (s : Rat) : Rat := max (-1) (min 1 s)

/-- The encoded integer sample `Math.floor(clamp(s) * 32767)`. -/
def sampleToInt (s : Rat) : Int := Int.floor (clampQ s * 32767)

/-- Write `bytes` into `buf` at consecutive offsets starting at `offset`
(a run of `DataView` byte writes). -/
def writeBytesAt : List Nat → Nat → List Nat → List Nat
  | buf, _, [] => buf
  | buf, o, b :: rest => writeBytesAt (buf.set o b) (o + 1) rest

/-- The sample loop of `writeWavToBuffer`:
`view.setInt16(44 + i * 2, Math.floor(clamp(s) * 32767), true)`. -/
def writeWavSamples : List Nat → Nat → List Rat → List Nat
  | buf, _, [] => buf
  | buf, base, s :: rest => writeWavSamples (writeBytesAt buf base (i16le (sampleToInt s))) (base + 2) rest

/-- `writeWavToBuffer`: allocate `44 + dataSize` zero bytes, write the RIFF/WAVE
header fields, then the 16-bit PCM samples. -/
def writeWavToBuffer (audioData : List Rat) (sampleRate : Nat) : List Nat :=
  let numChannels := 1
  let bitsPerSample := 16
  let byteRate := sampleRate * numChannels * bitsPerSample / 8
  let blockAlign := numChannels * bitsPerSample / 8
  let dataSize := audioData.length * bitsPerSample / 8
  let b0 := List.replicate (44 + dataSize) 0
  let b1 := writeBytesAt b0 0 (strUnits "RIFF")
  let b2 := writeBytesAt b1 4 (u32le (36 + dataSize))
  let b3 := writeBytesAt b2 8 (strUnits "WAVE")
  let b4 := writeBytesAt b3 12 (strUnits "fmt ")
  let b5 := writeBytesAt b4 16 (u32le 16)
  let b6 := writeBytesAt b5 20 (u16le 1)
  let b7 := writeBytesAt b6 22 (u16le numChannels)
  let b8 := writeBytesAt b7 24 (u32le sampleRate)
  let b9 := writeBytesAt b8 28 (u32le byteRate)
  let b10 := writeBytesAt b9 32 (u16le blockAlign)
  let b11 := writeBytesAt b10 34 (u16le bitsPerSample)
  let b12 := writeBytesAt b11 36 (strUnits "data")
  let b13 := writeBytesAt b12 40 (u32le dataSize)
  writeWavSamples b13 44 audioData

/-- JavaScript `wav.slice(0, e)` for a possibly negative float-derived end
index (a negative end counts from the end of the array). -/
def jsSliceTo (l : List Rat) (e : Int) : List Rat :=
  if e < 0 then l.take (l.length - (-e).toNat) else l.take e.toNat

/-- Result record of `synthesize`. -/
structure SynthesisResult where
  wavBuffer : List Nat
  sampleRate : Nat
  durationSeconds : Rat
deriving DecidableEq

/-- Options of `synthesize` (the session loading is process state, so the
`TextToSpeech` object and resolved voice style are parameters here). -/
structure SynthesizeOptions where
  text : JsStr
  totalStep : Int
  speed : Rat
  silenceDurationSeconds : Option Rat

/-- `synthesize`: run `TextToSpeech.call` with the defaulted silence duration,
truncate the waveform to `Math.floor(sampleRate * duration)` samples, and encode
it as a WAV buffer. The module-call log is passed through. -/
def synthesize (tts : TextToSpeech) (style : Style) (options : SynthesizeOptions) :
    Except String SynthesisResult × List MCall :=
  let silenceDuration := options.silenceDurationSeconds.getD (3 / 10)
  match tts.call options.text style options.totalStep options.speed silenceDuration with
  | (Except.error e, log) => (Except.error e, log)
  | (Except.ok r, log) =>
    let effectiveDuration := r.duration.getD 0 0
    let wavLen := Int.floor ((tts.sampleRate : Rat) * effectiveDuration)
    let wavOut := jsSliceTo r.wav wavLen
    (Except.ok ⟨writeWavToBuffer wavOut tts.sampleRate, tts.sampleRate, effectiveDuration⟩, log)

/-- The 44-byte RIFF/WAVE header with the field layout of §4.8 of the
specification (written from the specification's words, for comparison with
`writeWavToBuffer`). -/
def wavHeaderBytes (sampleRate dataSize : Nat) : List Nat :=
  strUnits "RIFF" ++ u32le (36 + dataSize) ++ strUnits "WAVE" ++
  strUnits "fmt " ++ u32le 16 ++ u16le 1 ++ u16le 1 ++ u32le sampleRate ++
  u32le (sampleRate * 1 * 16 / 8) ++ u16le (1 * 16 / 8) ++ u16le 16 ++
  strUnits "data" ++ u32le dataSize

/-- The PCM payload as the specification describes it: each float sample
clamped, scaled, floored, and written as a little-endian 16-bit integer. -/
def wavSampleBytes (audioData : List Rat) : List Nat :=
  (audioData.map (fun s => i16le (sampleToInt s))).flatten

/-! Lemmas about byte-buffer writes, for the WAV encoder. -/

lemma set_len_append (pre : List Nat) (x v : Nat) (t : List Nat) :
    (pre ++ x :: t).set pre.length v = pre ++ v :: t := by
  induction pre with
  | nil => rfl
  | cons a pre ih => simp [List.set, ih]

lemma writeBytesAt_fill (bytes : List Nat) : ∀ (pre : List Nat) (k o : Nat),
    o = pre.length → bytes.length ≤ k →
    writeBytesAt (pre ++ List.replicate k 0) o bytes =
      (pre ++ bytes) ++ List.replicate (k - bytes.length) 0 := by
  induction bytes with
  | nil => intro pre k o ho hk; simp [writeBytesAt]
  | cons b rest ih =>
    intro pre k o ho hk
    obtain ⟨k', rfl⟩ : ∃ k', k = k' + 1 := ⟨k - 1, by simp at hk; omega⟩
    have hrep : List.replicate (k' + 1) (0 : Nat) = 0 :: List.replicate k' 0 := rfl
    rw [hrep, writeBytesAt, ho, set_len_append]
    have hmid : pre ++ b :: List.replicate k' 0 = (pre ++ [b]) ++ List.replicate k' 0 := by simp
    rw [hmid, ih (pre ++ [b]) k' (pre.length + 1) (by simp) (by simp at hk ⊢; omega)]
    simp

lemma i16le_length (v : Int) : (i16le v).length = 2 := rfl

lemma writeWavSamples_fill (data : List Rat) : ∀ (pre : List Nat) (o : Nat),
    o = pre.length →
    writeWavSamples (pre ++ List.replicate (2 * data.length) 0) o data =
      pre ++ wavSampleBytes data := by
  induction data with
  | nil => intro pre o ho; simp [writeWavSamples, wavSampleBytes]
  | cons s rest ih =>
    intro pre o ho
    rw [writeWavSamples, ho]
    have h1 : writeBytesAt (pre ++ List.replicate (2 * (s :: rest).length) 0) pre.length
        (i16le (sampleToInt s)) =
        (pre ++ i16le (sampleToInt s)) ++ List.replicate (2 * rest.length) 0 := by
      have := writeBytesAt_fill (i16le (sampleToInt s)) pre (2 * (s :: rest).length) pre.length
        rfl (by simp [i16le_length]; try omega)
      simpa [i16le_length, Nat.mul_succ] using this
    rw [h1, ih (pre ++ i16le (sampleToInt s)) (pre.length + 2) (by simp [i16le_length])]
    simp [wavSampleBytes]

/-- Sequential chunked writes at consecutive offsets (the header writes of
`writeWavToBuffer` have exactly this shape). -/
def writeChunks (buf : List Nat) (o : Nat) : List (List Nat) → List Nat
  | [] => buf
  | c :: rest => writeChunks (writeBytesAt buf o c) (o + c.length) rest

lemma writeChunks_fill (chunks : List (List Nat)) : ∀ (pre : List Nat) (k o : Nat),
    o = pre.length → (chunks.map List.length).sum ≤ k →
    writeChunks (pre ++ List.replicate k 0) o chunks =
      (pre ++ chunks.flatten) ++ List.replicate (k - (chunks.map List.length).sum) 0 := by
  induction chunks with
  | nil => intro pre k o ho hk; simp [writeChunks]
  | cons c rest ih =>
    intro pre k o ho hk
    rw [writeChunks, ho]
    simp only [List.map_cons, List.sum_cons] at hk
    have h1 : writeBytesAt (pre ++ List.replicate k 0) pre.length c =
        (pre ++ c) ++ List.replicate (k - c.length) 0 :=
      writeBytesAt_fill c pre k pre.length rfl (by omega)
    rw [h1, ih (pre ++ c) (k - c.length) (pre.length + c.length) (by simp) (by omega)]
    simp only [List.flatten_cons, List.map_cons, List.sum_cons]
    have harith : k - c.length - (List.map List.length rest).sum =
        k - (c.length + (List.map List.length rest).sum) := by omega
    rw [harith]
    simp [List.append_assoc]

/-- The header writes of `writeWavToBuffer` as a list of byte chunks at
consecutive offsets `0, 4, 8, 12, 16, 20, 22, 24, 28, 32, 34, 36, 40`. -/
def wavHeaderChunks (sampleRate dataSize : Nat) : List (List Nat) :=
  [strUnits "RIFF", u32le (36 + dataSize), strUnits "WAVE", strUnits "fmt ",
   u32le 16, u16le 1, u16le 1, u32le sampleRate, u32le (sampleRate * 1 * 16 / 8),
   u16le (1 * 16 / 8), u16le 16, strUnits "data", u32le dataSize]

lemma wavHeaderChunks_sum (sr ds : Nat) :
    ((wavHeaderChunks sr ds).map List.length).sum = 44 := rfl

lemma wavHeaderChunks_flatten (sr ds : Nat) :
    (wavHeaderChunks sr ds).flatten = wavHeaderBytes sr ds := by
  simp [wavHeaderChunks, wavHeaderBytes]

lemma wavHeaderBytes_length (sr ds : Nat) : (wavHeaderBytes sr ds).length = 44 := by
  simp [wavHeaderBytes, u32le, u16le, strUnits]

/-- C7: for every float sample list and sample rate, `writeWavToBuffer` emits the
44-byte RIFF/WAVE header with the exact field layout (PCM format 1, 1 channel,
16 bits, `byte_rate = sample_rate · channels · bits / 8`,
`data_size = 2 · N_samples`, RIFF size `36 + data_size`) followed by each sample
encoded as the little-endian 16-bit integer `⌊clamp(s, -1, 1) · 32767⌋`. -/
theorem wav_encoder_layout (audioData : List Rat) (sampleRate : Nat) :
    writeWavToBuffer audioData sampleRate =
      wavHeaderBytes sampleRate (2 * audioData.length) ++ wavSampleBytes audioData ∧
    (wavHeaderBytes sampleRate (2 * audioData.length)).length = 44 := by
  refine ⟨?_, wavHeaderBytes_length _ _⟩
  have hds : audioData.length * 16 / 8 = 2 * audioData.length := by omega
  have h0 : writeWavToBuffer audioData sampleRate =
      writeWavSamples (writeChunks (List.replicate (44 + audioData.length * 16 / 8) 0) 0
        (wavHeaderChunks sampleRate (audioData.length * 16 / 8))) 44 audioData := rfl
  rw [h0]
  have h1 : writeChunks (List.replicate (44 + audioData.length * 16 / 8) 0) 0
      (wavHeaderChunks sampleRate (audioData.length * 16 / 8)) =
      (([] : List Nat) ++ (wavHeaderChunks sampleRate (audioData.length * 16 / 8)).flatten) ++
        List.replicate ((44 + audioData.length * 16 / 8) -
          (((wavHeaderChunks sampleRate (audioData.length * 16 / 8)).map List.length).sum)) 0 := by
    have := writeChunks_fill (wavHeaderChunks sampleRate (audioData.length * 16 / 8))
      [] (44 + audioData.length * 16 / 8) 0 rfl
      (by rw [wavHeaderChunks_sum]; omega)
    simpa using this
  rw [h1, wavHeaderChunks_sum, wavHeaderChunks_flatten]
  have h2 : (44 + audioData.length * 16 / 8) - 44 = 2 * audioData.length := by omega
  rw [h2]
  simp only [List.nil_append]
  rw [hds]
  exact writeWavSamples_fill audioData
    (wavHeaderBytes sampleRate (2 * audioData.length)) 44
    ((wavHeaderBytes_length _ _).symm)

/-! Concrete instances used by witnesses and counterexamples. -/

/-- Trivial module implementations for concrete evaluations. -/
def mods0 : Modules := ⟨fun _ _ _ => [1], fun _ _ _ => [], fun _ => [], fun _ => [5, 6]⟩

/-- A processor with an empty indexer table and identity normalization (every
string below is already NFKC-normalized). -/
def proc0 : UnicodeProcessor := ⟨[], fun s => s⟩

def cfg0 : TtsConfig := ⟨⟨2, 1⟩, ⟨1, 1⟩⟩

def tts0 : TextToSpeech := ⟨cfg0, proc0, mods0, fun _ _ _ => 0⟩

/-- A single-speaker style (`dims[0] = 1`). -/
def style1 : Style := ⟨⟨[1, 1, 1], []⟩, ⟨[1, 1, 1], []⟩⟩

/-- A two-speaker style (`dims[0] = 2`). -/
def style2 : Style := ⟨⟨[2, 1, 1], []⟩, ⟨[1, 1, 1], []⟩⟩

/-- C5: a resolved voice style whose `style_ttl.dims[0]` differs from `1` makes
the pipeline fail with the single-speaker error before any inference-module
call (the returned invocation log is empty). -/
theorem call_single_speaker_guard (tts : TextToSpeech) (text : JsStr) (style : Style)
    (totalStep : Int) (speed silenceDuration : Rat)
    (h : style.ttl.dims.headD 0 ≠ 1) :
    tts.call text style totalStep speed silenceDuration =
      (Except.error "Single speaker text to speech only supports single style", []) := by
  unfold TextToSpeech.call
  rw [if_pos h]

/-- Witness for C5 at a concrete two-speaker style. -/
theorem call_single_speaker_guard_witness :
    tts0.call [] style2 1 1 (3 / 10) =
      (Except.error "Single speaker text to speech only supports single style", []) :=
  call_single_speaker_guard tts0 [] style2 1 1 (3 / 10) (by decide)

/-- C10: with `totalStep ≤ 0` the denoising loop never runs: the log shows no
vector-estimator call (only duration predictor, text encoder and vocoder), and
the waveform is the vocoder applied to the initial masked Gaussian latent. -/
theorem infer_nonpositive_steps (tts : TextToSpeech) (textList : List JsStr) (style : Style)
    (totalStep : Int) (speed : Rat) (h : totalStep ≤ 0) :
    (tts.infer textList style totalStep speed).log = [MCall.dp, MCall.enc, MCall.voc] ∧
    (tts.infer textList style totalStep speed).wav = tts.mods.vocoder
      (sampleNoisyLatent tts.randn
        ((tts.mods.durationPredictor (tts.textProcessor.call textList).1 style.dp
          (tts.textProcessor.call textList).2).map (fun x => x / speed))
        tts.sampleRate tts.cfgs.ae.base_chunk_size tts.cfgs.ttl.chunk_compress_factor
        tts.cfgs.ttl.latent_dim).1 := by
  have hn : totalStep.toNat = 0 := Int.toNat_of_nonpos h
  unfold TextToSpeech.infer
  simp [hn]

/-- Witness for C10 at `totalStep = 0`. -/
theorem infer_nonpositive_steps_witness :
    (tts0.infer [[72, 105]] style1 0 1).log = [MCall.dp, MCall.enc, MCall.voc] ∧
    (tts0.infer [[72, 105]] style1 0 1).wav = tts0.mods.vocoder
      (sampleNoisyLatent tts0.randn
        ((tts0.mods.durationPredictor (tts0.textProcessor.call [[72, 105]]).1 style1.dp
          (tts0.textProcessor.call [[72, 105]]).2).map (fun x => x / 1))
        tts0.sampleRate tts0.cfgs.ae.base_chunk_size tts0.cfgs.ttl.chunk_compress_factor
        tts0.cfgs.ttl.latent_dim).1 :=
  infer_nonpositive_steps tts0 [[72, 105]] style1 0 1 (by decide)

/-! Shape predicates and lemmas for the denoising loop (C6). -/

/-- `rect3 t b d l` holds when `t` is a rectangular tensor of shape `[b, d, l]`. -/
def rect3 (t : T3) (b d l : Nat) : Bool :=
  t.length == b && t.all (fun batch => batch.length == d && batch.all (fun row => row.length == l))

lemma rect3_iff (t : T3) (b d l : Nat) : rect3 t b d l = true ↔
    t.length = b ∧ ∀ batch ∈ t, batch.length = d ∧ ∀ row ∈ batch, row.length = l := by
  simp [rect3, List.all_eq_true]

lemma mem_mapIdx {α β : Type} {l : List α} {f : Nat → α → β} {b : β} (h : b ∈ l.mapIdx f) :
    ∃ i a, a ∈ l ∧ b = f i a := by
  rw [List.mapIdx_eq_enum_map] at h
  obtain ⟨⟨i, a⟩, ha, rfl⟩ := List.mem_map.mp h
  have h2 := List.mem_enum_iff_getElem?.mp ha
  have hmem : a ∈ l := by
    have h3 : i < l.length := by
      by_contra hc
      rw [List.getElem?_eq_none (by omega)] at h2
      exact Option.noConfusion h2
    have h4 : l[i] = a := by
      rw [List.getElem?_eq_getElem h3] at h2
      exact Option.some.inj h2
    exact h4 ▸ List.getElem_mem h3
  exact ⟨i, a, hmem, rfl⟩

lemma reshapeFlat_rect (b d l : Nat) (flat : List Rat) :
    rect3 (reshapeFlat b d l flat) b d l = true := by
  rw [rect3_iff]
  refine ⟨by simp [reshapeFlat], ?_⟩
  intro batch hb
  obtain ⟨i, hi, rfl⟩ := List.mem_map.mp hb
  refine ⟨by simp, ?_⟩
  intro row hr
  obtain ⟨j, hj, rfl⟩ := List.mem_map.mp hr
  simp

lemma sampleNoisyLatent_rect (randn : Nat → Nat → Nat → Rat) (duration : List Rat)
    (sampleRate baseChunkSize chunkCompress latentDim : Nat) :
    rect3 (sampleNoisyLatent randn duration sampleRate baseChunkSize chunkCompress latentDim).1
      duration.length (latentDim * chunkCompress)
      ((latentLenFor (wavLengthOf (jsMaxQ duration) sampleRate)
        (baseChunkSize * chunkCompress)).toNat) = true := by
  rw [rect3_iff]
  unfold sampleNoisyLatent
  constructor
  · simp
  · intro batch hb
    simp only at hb
    obtain ⟨i, a, ha, rfl⟩ := mem_mapIdx hb
    obtain ⟨bi, hbi, rfl⟩ := List.mem_map.mp ha
    refine ⟨by simp, ?_⟩
    intro row hr
    obtain ⟨r0, hr0, rfl⟩ := List.mem_map.mp hr
    obtain ⟨di, hdi, rfl⟩ := List.mem_map.mp hr0
    simp

lemma denoiseStep_rect (est : EstIn → List Rat) (textEmb : List Rat) (styleTtl : StyleTensor)
    (latentMask textMask : T3) (bsz : Nat) (ts : Rat) (xt : T3) (d l step : Nat)
    (hb : 0 < bsz) (h : rect3 xt bsz d l = true) :
    rect3 (denoiseStep est textEmb styleTtl latentMask textMask bsz ts xt step) bsz d l = true := by
  rw [rect3_iff] at h
  obtain ⟨hlen, hall⟩ := h
  cases xt with
  | nil => simp at hlen; omega
  | cons x rest =>
    obtain ⟨hx, hrows⟩ := hall x (List.mem_cons_self x rest)
    unfold denoiseStep
    by_cases hd : d = 0
    · subst hd
      have hx0 : x = [] := List.length_eq_zero.mp hx
      subst hx0
      rw [rect3_iff]
      refine ⟨by simp [reshapeFlat], ?_⟩
      intro batch hbm
      obtain ⟨bi, hbi, rfl⟩ := List.mem_map.mp hbm
      simp
    · cases x with
      | nil => simp at hx; omega
      | cons r xs =>
        have hr : r.length = l := hrows r (List.mem_cons_self r xs)
        have hxd : (r :: xs).length = d := hx
        simp only [List.headD_cons]
        rw [hr, hxd]
        exact reshapeFlat_rect bsz d l _

lemma scanl_all {α β : Type} {P : β → Prop} (f : β → α → β)
    (hf : ∀ x s, P x → P (f x s)) : ∀ (l : List α) (x0 : β), P x0 →
    ∀ y ∈ List.scanl f x0 l, P y := by
  intro l
  induction l with
  | nil =>
    intro x0 h0 y hy
    rw [List.scanl_nil, List.mem_singleton] at hy
    rwa [hy]
  | cons a t ih =>
    intro x0 h0 y hy
    rw [List.scanl_cons] at hy
    rcases List.mem_append.mp hy with h1 | h1
    · rw [List.mem_singleton] at h1; rwa [h1]
    · exact ih (f x0 a) (hf x0 a h0) y h1

/-- The `current_step` arguments of the vector-estimator calls recorded in a log. -/
def estStepsOf (log : List MCall) : List Nat :=
  log.filterMap (fun m => match m with | MCall.est k => some k | _ => none)

lemma estStepsOf_infer_log (n : Nat) :
    estStepsOf ([MCall.dp, MCall.enc] ++ (List.range n).map MCall.est ++ [MCall.voc]) =
      List.range n := by
  simp only [estStepsOf, List.filterMap_append, List.filterMap_map]
  have hcomp : ((fun m => match m with | MCall.est k => some k | _ => none) ∘ MCall.est) =
      (some : Nat → Option Nat) := rfl
  rw [hcomp, List.filterMap_some]
  simp [List.filterMap]

/-- C6: for `totalStep ≥ 1` (and a duration predictor honouring its `f32[B]`
output contract on a non-empty batch), the denoising loop invokes the vector
estimator exactly `totalStep` times with zero-based `current_step` values
`0, 1, …, totalStep − 1`, and the latent keeps the rectangular shape
`[B, latent_dim · chunk_compress_factor, latent_len]` after every step
(`latents` lists the latent before the loop and after each step). In
particular `totalStep = 1` gives exactly one call with `current_step = 0`. -/
theorem denoising_loop_steps_and_shape (tts : TextToSpeech) (textList : List JsStr)
    (style : Style) (totalStep : Int) (speed : Rat)
    (h1 : 1 ≤ totalStep) (h2 : textList ≠ [])
    (h3 : (tts.mods.durationPredictor (tts.textProcessor.call textList).1 style.dp
      (tts.textProcessor.call textList).2).length = textList.length) :
    estStepsOf (tts.infer textList style totalStep speed).log = List.range totalStep.toNat ∧
    ∀ x ∈ (tts.infer textList style totalStep speed).latents,
      rect3 x textList.length
        (tts.cfgs.ttl.latent_dim * tts.cfgs.ttl.chunk_compress_factor)
        ((latentLenFor (wavLengthOf (jsMaxQ
            ((tts.mods.durationPredictor (tts.textProcessor.call textList).1 style.dp
              (tts.textProcessor.call textList).2).map (fun x => x / speed)))
            tts.sampleRate)
          (tts.cfgs.ae.base_chunk_size * tts.cfgs.ttl.chunk_compress_factor)).toNat) = true := by
  constructor
  · show estStepsOf (TextToSpeech.infer tts textList style totalStep speed).log = _
    unfold TextToSpeech.infer
    exact estStepsOf_infer_log totalStep.toNat
  · intro x hx
    have hbsz : 0 < textList.length := List.length_pos.mpr h2
    have hlat : (tts.infer textList style totalStep speed).latents =
        List.scanl
          (denoiseStep tts.mods.vectorEstimator
            (tts.mods.textEncoder (tts.textProcessor.call textList).1 style.ttl
              (tts.textProcessor.call textList).2)
            style.ttl
            (sampleNoisyLatent tts.randn
              ((tts.mods.durationPredictor (tts.textProcessor.call textList).1 style.dp
                (tts.textProcessor.call textList).2).map (fun x => x / speed))
              tts.sampleRate tts.cfgs.ae.base_chunk_size tts.cfgs.ttl.chunk_compress_factor
              tts.cfgs.ttl.latent_dim).2
            (tts.textProcessor.call textList).2 textList.length (totalStep : Rat))
          (sampleNoisyLatent tts.randn
            ((tts.mods.durationPredictor (tts.textProcessor.call textList).1 style.dp
              (tts.textProcessor.call textList).2).map (fun x => x / speed))
            tts.sampleRate tts.cfgs.ae.base_chunk_size tts.cfgs.ttl.chunk_compress_factor
            tts.cfgs.ttl.latent_dim).1
          (List.range totalStep.toNat) := rfl
    rw [hlat] at hx
    have hX0 := sampleNoisyLatent_rect tts.randn
      ((tts.mods.durationPredictor (tts.textProcessor.call textList).1 style.dp
        (tts.textProcessor.call textList).2).map (fun x => x / speed))
      tts.sampleRate tts.cfgs.ae.base_chunk_size tts.cfgs.ttl.chunk_compress_factor
      tts.cfgs.ttl.latent_dim
    rw [List.length_map, h3] at hX0
    exact scanl_all _
      (fun y s hy => denoiseStep_rect _ _ _ _ _ _ _ y _ _ s hbsz hy)
      (List.range totalStep.toNat) _ (of_eq_true (eq_true hX0)) x hx

/-- Witness for C6 at `totalStep = 1` on a concrete pipeline. -/
theorem denoising_loop_steps_and_shape_witness :
    estStepsOf (tts0.infer [[72, 105]] style1 1 1).log = List.range (1 : Int).toNat ∧
    ∀ x ∈ (tts0.infer [[72, 105]] style1 1 1).latents,
      rect3 x ([[72, 105]] : List JsStr).length
        (tts0.cfgs.ttl.latent_dim * tts0.cfgs.ttl.chunk_compress_factor)
        ((latentLenFor (wavLengthOf (jsMaxQ
            ((tts0.mods.durationPredictor (tts0.textProcessor.call [[72, 105]]).1 style1.dp
              (tts0.textProcessor.call [[72, 105]]).2).map (fun x => x / 1)))
            tts0.sampleRate)
          (tts0.cfgs.ae.base_chunk_size * tts0.cfgs.ttl.chunk_compress_factor)).toNat) = true :=
  denoising_loop_steps_and_shape tts0 [[72, 105]] style1 1 1 (by decide) (by decide) (by decide)

/-! Lemmas for the latent mask (C1). -/

lemma foldl_max_bounds {α : Type} [LinearOrder α] (l : List α) : ∀ (a : α), a ≤ l.foldl max a ∧
    ∀ x ∈ l, x ≤ l.foldl max a := by
  induction l with
  | nil => intro a; simp
  | cons b t ih =>
    intro a
    refine ⟨le_trans (le_max_left a b) (ih (max a b)).1, ?_⟩
    intro x hx
    rcases List.mem_cons.mp hx with rfl | hx
    · exact le_trans (le_max_right a x) (ih (max a x)).1
    · exact (ih (max a b)).2 x hx

lemma le_jsMaxQ {l : List Rat} {x : Rat} (hx : x ∈ l) : x ≤ jsMaxQ l :=
  (foldl_max_bounds l (l.headD 0)).2 x hx

lemma latentLenFor_eq_ceil (a : Int) (c : Nat) (hc : 0 < c) :
    latentLenFor a c = Int.ceil ((a : Rat) / c) := by
  unfold latentLenFor
  have hcq : (0 : Rat) < c := by exact_mod_cast hc
  set q := Int.ceil ((a : Rat) / c) with hq
  have h1 : (a : Rat) / c ≤ q := Int.le_ceil _
  have h2 : (q : Rat) < (a : Rat) / c + 1 := Int.ceil_lt_add_one _
  have ha1 : (a : Rat) ≤ q * c := (div_le_iff₀ hcq).mp h1
  have ha2 : ((q : Rat) - 1) * c < a := by
    rw [← lt_div_iff₀ hcq]
    linarith
  have hia1 : a ≤ q * c := by exact_mod_cast ha1
  have hia2 : (q - 1) * c < a := by exact_mod_cast ha2
  apply Int.floor_eq_iff.mpr
  constructor
  · rw [le_div_iff₀ hcq]
    have h3 : q * c ≤ a + c - 1 := by nlinarith [hia2]
    calc (q : Rat) * c ≤ ((a + c - 1 : Int) : Rat) := by exact_mod_cast h3
    _ = (a : Rat) + c - 1 := by push_cast; ring
  · rw [div_lt_iff₀ hcq]
    have h3 : a + c - 1 < (q + 1) * c := by nlinarith [hia1, hc]
    calc (a : Rat) + c - 1 = ((a + c - 1 : Int) : Rat) := by push_cast; ring
    _ < ((q + 1) * c : Int) := by exact_mod_cast h3
    _ = ((q : Rat) + 1) * c := by push_cast; ring

lemma latentLenFor_mono {a b : Int} (c : Nat) (hc : 0 < c) (h : a ≤ b) :
    latentLenFor a c ≤ latentLenFor b c := by
  unfold latentLenFor
  apply Int.floor_le_floor
  have hcq : (0 : Rat) < c := by exact_mod_cast hc
  have hab : (a : Rat) ≤ b := by exact_mod_cast h
  gcongr

lemma lengthToMaskRow_eq (len maxLen : Int) (h0 : 0 ≤ len) (hle : len ≤ maxLen) :
    lengthToMaskRow len maxLen =
      List.replicate len.toNat 1 ++ List.replicate (maxLen.toNat - len.toNat) 0 := by
  unfold lengthToMaskRow
  rw [min_eq_left hle]
  have htn : len.toNat ≤ maxLen.toNat := Int.toNat_le_toNat hle
  have hsplit : maxLen.toNat = len.toNat + (maxLen.toNat - len.toNat) := by omega
  rw [hsplit, List.range_add len.toNat (maxLen.toNat - len.toNat), List.map_append]
  congr 1
  · apply List.eq_replicate_iff.mpr
    refine ⟨by simp, ?_⟩
    intro b hb
    obtain ⟨j, hj, rfl⟩ := List.mem_map.mp hb
    rw [List.mem_range] at hj
    have hlt : (j : Int) < len := by omega
    rw [if_pos hlt]
  · rw [List.map_map]
    apply List.eq_replicate_iff.mpr
    refine ⟨by simp, ?_⟩
    intro b hb
    obtain ⟨j, hj, rfl⟩ := List.mem_map.mp hb
    have hge : ¬ ((((len.toNat + j : Nat)) : Int) < len) := by omega
    simp only [Function.comp_apply]
    rw [if_neg hge]

/-- The latent length `latentLen` of `sampleNoisyLatent` as a natural number. -/
def latentLenNat (duration : List Rat) (sampleRate chunkSize : Nat) : Nat :=
  (latentLenFor (wavLengthOf (jsMaxQ duration) sampleRate) chunkSize).toNat

/-- The corrected count of ones in row `i` of the latent mask:
`⌈⌊duration_i · sample_rate⌋ / chunk_size⌉`. -/
def latentOnes (duration : List Rat) (sampleRate chunkSize : Nat) (i : Nat) : Nat :=
  (Int.ceil ((wavLengthOf (duration.getD i 0) sampleRate : Rat) / chunkSize)).toNat

lemma countOnes_replicate (m n : Nat) :
    countOnes (List.replicate m (1 : Rat) ++ List.replicate n 0) = m := by
  simp [countOnes, List.count_append, List.count_replicate]

/-- C1 (amended): for nonnegative durations and a positive
`chunk_size = base_chunk_size · chunk_compress_factor`, row `i` of the latent
mask returned by `sampleNoisyLatent` has exactly
`⌈⌊duration_i · sample_rate⌋ / chunk_size⌉` ones
(equivalently `⌊(⌊duration_i · sample_rate⌋ + chunk_size − 1) / chunk_size⌋`,
which is what the source computes), followed only by zeros. -/
theorem latent_mask_rows (randn : Nat → Nat → Nat → Rat) (duration : List Rat)
    (sampleRate baseChunkSize chunkCompress latentDim : Nat)
    (hnn : ∀ d ∈ duration, 0 ≤ d) (hc : 0 < baseChunkSize * chunkCompress)
    (i : Nat) (hi : i < duration.length) :
    ((sampleNoisyLatent randn duration sampleRate baseChunkSize chunkCompress latentDim).2.getD i [])
      = [List.replicate (latentOnes duration sampleRate (baseChunkSize * chunkCompress) i) 1 ++
         List.replicate (latentLenNat duration sampleRate (baseChunkSize * chunkCompress) -
           latentOnes duration sampleRate (baseChunkSize * chunkCompress) i) 0] ∧
    countOnes (((sampleNoisyLatent randn duration sampleRate baseChunkSize chunkCompress
        latentDim).2.getD i []).getD 0 [])
      = latentOnes duration sampleRate (baseChunkSize * chunkCompress) i := by
  set c := baseChunkSize * chunkCompress with hcdef
  have hcq : (0 : Rat) < c := by exact_mod_cast hc
  set len_i := latentLenFor (wavLengthOf (duration.getD i 0) sampleRate) c with hleni
  set L := latentLenFor (wavLengthOf (jsMaxQ duration) sampleRate) c with hLdef
  have hmem : duration.getD i 0 ∈ duration := by
    rw [List.getD_eq_getElem _ _ hi]
    exact List.getElem_mem hi
  have hd0 : 0 ≤ duration.getD i 0 := hnn _ hmem
  have hw0 : 0 ≤ wavLengthOf (duration.getD i 0) sampleRate := by
    unfold wavLengthOf
    exact Int.floor_nonneg.mpr (mul_nonneg hd0 (by positivity))
  have hlen0 : 0 ≤ len_i := by
    rw [hleni]
    unfold latentLenFor
    apply Int.floor_nonneg.mpr
    apply div_nonneg ?_ (le_of_lt hcq)
    have : (0 : Rat) ≤ (wavLengthOf (duration.getD i 0) sampleRate : Rat) := by exact_mod_cast hw0
    have hc1 : (1 : Rat) ≤ c := by exact_mod_cast hc
    linarith
  have hmono : len_i ≤ L := by
    rw [hleni, hLdef]
    apply latentLenFor_mono c hc
    unfold wavLengthOf
    apply Int.floor_le_floor
    exact mul_le_mul_of_nonneg_right (le_jsMaxQ hmem) (by positivity)
  have hmask : (sampleNoisyLatent randn duration sampleRate baseChunkSize chunkCompress
      latentDim).2 =
      lengthToMask ((duration.map (fun d => wavLengthOf d sampleRate)).map
        (fun len => latentLenFor len c)) L := rfl
  have hiA : i < ((duration.map (fun d => wavLengthOf d sampleRate)).map
      (fun len => latentLenFor len c)).length := by simpa using hi
  have hrow : ((sampleNoisyLatent randn duration sampleRate baseChunkSize chunkCompress
      latentDim).2.getD i []) = [lengthToMaskRow len_i L] := by
    rw [hmask]
    unfold lengthToMask
    rw [List.getD_eq_getElem _ _ (by simpa using hiA), List.getElem_map]
    congr 2
    rw [List.getElem_map, List.getElem_map, hleni]
    congr 1
    rw [List.getD_eq_getElem _ _ hi]
  have hones : len_i.toNat = latentOnes duration sampleRate c i := by
    unfold latentOnes
    rw [hleni, latentLenFor_eq_ceil _ _ hc]
  have hrepl : lengthToMaskRow len_i L =
      List.replicate (latentOnes duration sampleRate c i) 1 ++
      List.replicate (latentLenNat duration sampleRate c -
        latentOnes duration sampleRate c i) 0 := by
    rw [lengthToMaskRow_eq len_i L hlen0 hmono, hones]
    rfl
  refine ⟨by rw [hrow, hrepl], ?_⟩
  rw [hrow, hrepl]
  simp only [List.getD_cons_zero]
  exact countOnes_replicate _ _

lemma wavLengthOf_one_two : wavLengthOf 1 2 = 2 := by
  unfold wavLengthOf
  norm_num

lemma latentLenFor_two_two : latentLenFor 2 2 = 1 := by
  unfold latentLenFor
  norm_num

/-- Counterexample to C1 as stated: with `duration = [1]`, `sample_rate = 2`,
`base_chunk_size = 2`, `chunk_compress_factor = 1`, the mask row has `1` one
(`⌊(⌊1·2⌋ + 2 − 1) / 2⌋ = 1`), while the claimed count
`⌈(⌊1·2⌋ + 2 − 1) / 2⌉ = ⌈3/2⌉` is `2`. -/
theorem latent_mask_rows_counterexample :
    countOnes (((sampleNoisyLatent (fun _ _ _ => 0) [1] 2 2 1 1).2.getD 0 []).getD 0 []) = 1 ∧
    (Int.ceil ((((wavLengthOf (([1] : List Rat).getD 0 0) 2 : Int) : Rat) + 2 - 1) / 2)).toNat = 2 ∧
    countOnes (((sampleNoisyLatent (fun _ _ _ => 0) [1] 2 2 1 1).2.getD 0 []).getD 0 []) ≠
      (Int.ceil ((((wavLengthOf (([1] : List Rat).getD 0 0) 2 : Int) : Rat) + 2 - 1) / 2)).toNat := by
  have hwl : wavLengthOf 1 2 = 2 := wavLengthOf_one_two
  have hmax : jsMaxQ [1] = 1 := by simp [jsMaxQ]
  have h0 : (sampleNoisyLatent (fun _ _ _ => 0) [1] 2 2 1 1).2 =
      lengthToMask ((([1] : List Rat).map (fun d => wavLengthOf d 2)).map
        (fun len => latentLenFor len 2)) (latentLenFor (wavLengthOf (jsMaxQ [1]) 2) 2) := rfl
  have hrow : lengthToMaskRow 1 1 = [1] := by
    unfold lengthToMaskRow
    decide
  have hmask : (sampleNoisyLatent (fun _ _ _ => 0) [1] 2 2 1 1).2 = [[[1]]] := by
    rw [h0, hmax, hwl]
    simp only [List.map_cons, List.map_nil, hwl, latentLenFor_two_two]
    simp [lengthToMask, hrow]
  have hcount : countOnes (((sampleNoisyLatent (fun _ _ _ => 0) [1] 2 2 1 1).2.getD 0
      []).getD 0 []) = 1 := by
    rw [hmask]
    simp [countOnes]
  have hgd : (([1] : List Rat).getD 0 0) = 1 := rfl
  have h32 : (((2 : Int) : Rat) + 2 - 1) / 2 = 3 / 2 := by push_cast; ring
  have hceil : (Int.ceil ((((wavLengthOf (([1] : List Rat).getD 0 0) 2 : Int) : Rat) +
      2 - 1) / 2)).toNat = 2 := by
    rw [hgd, hwl, h32, show Int.ceil ((3 : Rat) / 2) = 2 from by rw [Int.ceil_eq_iff]; norm_num]
    rfl
  refine ⟨hcount, hceil, ?_⟩
  rw [hcount, hceil]
  decide

lemma le_jsMaxNat {l : List Nat} {x : Nat} (hx : x ∈ l) : x ≤ jsMaxNat l :=
  (foldl_max_bounds l 0).2 x hx

/-- Witness for the amended C1 at `duration = [1/2]`, `sample_rate = 4`,
`base_chunk_size = 2`, `chunk_compress_factor = 1`. -/
theorem latent_mask_rows_witness :
    (∀ d ∈ ([1 / 2] : List Rat), 0 ≤ d) ∧
    (((sampleNoisyLatent (fun _ _ _ => 0) [1 / 2] 4 2 1 1).2.getD 0 [])
      = [List.replicate (latentOnes [1 / 2] 4 (2 * 1) 0) 1 ++
         List.replicate (latentLenNat [1 / 2] 4 (2 * 1) -
           latentOnes [1 / 2] 4 (2 * 1) 0) 0] ∧
     countOnes (((sampleNoisyLatent (fun _ _ _ => 0) [1 / 2] 4 2 1 1).2.getD 0 []).getD 0 [])
      = latentOnes [1 / 2] 4 (2 * 1) 0) :=
  ⟨by norm_num,
   latent_mask_rows (fun _ _ _ => 0) [1 / 2] 4 2 1 1 (by norm_num) (by decide) 0 (by decide)⟩

/-- C2 (amended): for every indexer, normalizer, and position `i` of the input
list, the indexer normalizes the `i`-th string and iterates its UTF-16 code
units in storage order (`codePointAt` at every unit index, so the trailing
surrogate of a pair is visited as well); at each unit index `j` it emits
`indexer_table[codePointAt(j)]` when that code point is below the table length
and `-1` otherwise; rows are right-padded with `0` to the maximal UTF-16
length, and the `i`-th mask row contains a number of ones equal to the UTF-16
code-unit length of the `i`-th normalized input, followed only by zeros. -/
theorem unicode_indexer_rows (p : UnicodeProcessor) (textList : List JsStr)
    (i : Nat) (hi : i < textList.length) :
    ((p.call textList).1.getD i []) =
      (List.range (p.normNFKC (textList.getD i [])).length).map (fun j =>
        if codePointAt (p.normNFKC (textList.getD i [])) j < p.indexer.length then
          p.indexer.getD (codePointAt (p.normNFKC (textList.getD i [])) j) 0 else -1)
      ++ List.replicate (jsMaxNat ((textList.map p.normNFKC).map List.length) -
          (p.normNFKC (textList.getD i [])).length) 0 ∧
    ((p.call textList).2.getD i []) =
      [List.replicate (p.normNFKC (textList.getD i [])).length 1 ++
       List.replicate (jsMaxNat ((textList.map p.normNFKC).map List.length) -
         (p.normNFKC (textList.getD i [])).length) 0] ∧
    countOnes (((p.call textList).2.getD i []).getD 0 []) =
      (p.normNFKC (textList.getD i [])).length := by
  have hi2 : i < (textList.map p.normNFKC).length := by simpa using hi
  have hgetT : p.normNFKC (textList.getD i []) =
      (textList.map p.normNFKC)[i] := by
    rw [List.getD_eq_getElem _ _ hi, List.getElem_map]
  have htmem : p.normNFKC (textList.getD i []) ∈ textList.map p.normNFKC := by
    rw [hgetT]
    exact List.getElem_mem _
  have hle : (p.normNFKC (textList.getD i [])).length ≤
      jsMaxNat ((textList.map p.normNFKC).map List.length) :=
    le_jsMaxNat (List.mem_map_of_mem List.length htmem)
  have hrow1 : (p.call textList).1.getD i [] =
      (List.range (jsMaxNat ((textList.map p.normNFKC).map List.length))).map (fun j =>
        if j < (p.normNFKC (textList.getD i [])).length then
          (if codePointAt (p.normNFKC (textList.getD i [])) j < p.indexer.length then
            p.indexer.getD (codePointAt (p.normNFKC (textList.getD i [])) j) 0 else -1)
        else 0) := by
    show ((textList.map p.normNFKC).map (fun s =>
      (List.range (jsMaxNat ((textList.map p.normNFKC).map List.length))).map (fun j =>
        if j < s.length then
          (if codePointAt s j < p.indexer.length then p.indexer.getD (codePointAt s j) 0 else -1)
        else 0))).getD i [] = _
    rw [List.getD_eq_getElem _ _ (by simpa using hi), List.getElem_map, ← hgetT]
  have hmask : (p.call textList).2.getD i [] =
      [lengthToMaskRow (Int.ofNat (p.normNFKC (textList.getD i [])).length)
        (Int.ofNat (jsMaxNat ((textList.map p.normNFKC).map List.length)))] := by
    show (lengthToMask (((textList.map p.normNFKC).map List.length).map Int.ofNat)
      (Int.ofNat (jsMaxNat ((textList.map p.normNFKC).map List.length)))).getD i [] = _
    unfold lengthToMask
    rw [List.getD_eq_getElem _ _ (by simpa using hi), List.getElem_map]
    congr 2
    rw [List.getElem_map]
    congr 1
    rw [List.getElem_map, ← hgetT]
  have hofn1 : Int.ofNat (p.normNFKC (textList.getD i [])).length =
      ((p.normNFKC (textList.getD i [])).length : Int) := rfl
  have hofn2 : Int.ofNat (jsMaxNat ((textList.map p.normNFKC).map List.length)) =
      ((jsMaxNat ((textList.map p.normNFKC).map List.length)) : Int) := rfl
  have hmask2 : (p.call textList).2.getD i [] =
      [List.replicate (p.normNFKC (textList.getD i [])).length 1 ++
       List.replicate (jsMaxNat ((textList.map p.normNFKC).map List.length) -
         (p.normNFKC (textList.getD i [])).length) 0] := by
    rw [hmask, hofn1, hofn2,
      lengthToMaskRow_eq _ _ (by positivity) (by exact_mod_cast hle)]
    simp
  refine ⟨?_, hmask2, ?_⟩
  · rw [hrow1]
    have hsplit : jsMaxNat ((textList.map p.normNFKC).map List.length) =
        (p.normNFKC (textList.getD i [])).length +
        (jsMaxNat ((textList.map p.normNFKC).map List.length) -
          (p.normNFKC (textList.getD i [])).length) := by omega
    conv_lhs => rw [hsplit]
    rw [List.range_add ((p.normNFKC (textList.getD i [])).length) _, List.map_append,
      List.map_map]
    congr 1
    · apply List.map_congr_left
      intro j hj
      rw [List.mem_range] at hj
      rw [if_pos hj]
    · apply List.eq_replicate_iff.mpr
      refine ⟨by simp, ?_⟩
      intro b hb
      obtain ⟨j, hj, rfl⟩ := List.mem_map.mp hb
      simp only [Function.comp_apply]
      rw [if_neg (by omega)]
  · rw [hmask2]
    simp only [List.getD_cons_zero]
    exact countOnes_replicate _ _

/-- Counterexample to C2 as stated: the string consisting of the single astral
code point U+1F600 (UTF-16 units `[55357, 56832]`, an NFKC-fixed point, so the
identity is its normalization) has code-point length 1, but the mask row
carries 2 ones because the loop iterates UTF-16 code units. -/
theorem unicode_indexer_rows_counterexample :
    countOnes ((((UnicodeProcessor.mk [0] (fun s => s)).call
      [[55357, 56832]]).2.getD 0 []).getD 0 []) = 2 ∧
    codePointCount ((UnicodeProcessor.mk [0] (fun s => s)).normNFKC [55357, 56832]) = 1 ∧
    countOnes ((((UnicodeProcessor.mk [0] (fun s => s)).call
      [[55357, 56832]]).2.getD 0 []).getD 0 []) ≠
      codePointCount ((UnicodeProcessor.mk [0] (fun s => s)).normNFKC [55357, 56832]) := by
  refine ⟨?_, by decide, ?_⟩ <;> decide

/-- Witness for the amended C2 on a concrete two-character ASCII input. -/
theorem unicode_indexer_rows_witness :
    ((proc0.call [[72, 105]]).1.getD 0 []) =
      (List.range (proc0.normNFKC (([[72, 105]] : List JsStr).getD 0 [])).length).map (fun j =>
        if codePointAt (proc0.normNFKC (([[72, 105]] : List JsStr).getD 0 [])) j <
            proc0.indexer.length then
          proc0.indexer.getD (codePointAt (proc0.normNFKC
            (([[72, 105]] : List JsStr).getD 0 [])) j) 0 else -1)
      ++ List.replicate (jsMaxNat ((([[72, 105]] : List JsStr).map proc0.normNFKC).map
          List.length) - (proc0.normNFKC (([[72, 105]] : List JsStr).getD 0 [])).length) 0 ∧
    ((proc0.call [[72, 105]]).2.getD 0 []) =
      [List.replicate (proc0.normNFKC (([[72, 105]] : List JsStr).getD 0 [])).length 1 ++
       List.replicate (jsMaxNat ((([[72, 105]] : List JsStr).map proc0.normNFKC).map
         List.length) - (proc0.normNFKC (([[72, 105]] : List JsStr).getD 0 [])).length) 0] ∧
    countOnes (((proc0.call [[72, 105]]).2.getD 0 []).getD 0 []) =
      (proc0.normNFKC (([[72, 105]] : List JsStr).getD 0 [])).length :=
  unicode_indexer_rows proc0 [[72, 105]] 0 (by decide)

/-! Lemmas about the split scanner (C8, C3). -/

lemma jsSplitFromGo_points_match (matchAt : JsStr → Nat → Option Nat) (s : JsStr) :
    ∀ (fuel start i : Nat),
    ∀ j ∈ (jsSplitFromGo matchAt s fuel start i).2, matchAt s j ≠ none := by
  intro fuel
  induction fuel with
  | zero =>
    intro start i j hj
    simp [jsSplitFromGo] at hj
  | succ fuel ih =>
    intro start i j hj
    rw [jsSplitFromGo] at hj
    by_cases hlt : i < s.length
    · rw [if_pos hlt] at hj
      cases hm : matchAt s i with
      | some len =>
        rw [hm] at hj
        simp only [List.mem_cons] at hj
        rcases hj with rfl | hj
        · rw [hm]; exact Option.noConfusion
        · exact ih (i + len.max 1) (i + len.max 1) j hj
      | none =>
        rw [hm] at hj
        exact ih start (i + 1) j hj
    · rw [if_neg hlt] at hj
      simp at hj

lemma jsSplitFrom_points_match (matchAt : JsStr → Nat → Option Nat) (s : JsStr)
    (start i : Nat) : ∀ j ∈ (jsSplitFrom matchAt s start i).2, matchAt s j ≠ none :=
  jsSplitFromGo_points_match matchAt s (s.length + 1 - i) start i

/-- C8: the sentence splitter of `chunkText` never splits at a position whose
preceding text ends with one of the listed abbreviations, nor right after a
single capital letter followed by a period at a word boundary (initials). -/
theorem sentence_splitter_protects (s : JsStr) (i : Nat)
    (h : (∃ a ∈ abbrevList, a.isSuffixOf (s.take i) = true) ∨ initialAt s i = true) :
    i ∉ jsSplitPoints matchSentenceSep s := by
  intro hmem
  have hne : matchSentenceSep s i ≠ none :=
    jsSplitFrom_points_match matchSentenceSep s 0 0 i hmem
  apply hne
  unfold matchSentenceSep
  rw [if_neg]
  intro hcond
  obtain ⟨_, _, _, _, habb, hini⟩ := hcond
  rcases h with ⟨a, ha, hsuf⟩ | hini2
  · have : endsWithAbbrevAt s i = true := by
      unfold endsWithAbbrevAt
      rw [List.any_eq_true]
      exact ⟨a, ha, hsuf⟩
    rw [this] at habb
    exact Bool.noConfusion habb
  · rw [hini2] at hini
    exact Bool.noConfusion hini

/-- Witness for C8: position 3 of `"Mr. Smith"` follows the abbreviation
`"Mr."`, so it is not a split point. -/
theorem sentence_splitter_protects_witness :
    3 ∉ jsSplitPoints matchSentenceSep (strUnits "Mr. Smith") :=
  sentence_splitter_protects (strUnits "Mr. Smith") 3
    (Or.inl ⟨strUnits "Mr.", by decide, by decide⟩)

lemma jsSplitFromGo_no_match (matchAt : JsStr → Nat → Option Nat) (s : JsStr)
    (hnone : ∀ i, matchAt s i = none) :
    ∀ (fuel start i : Nat),
    jsSplitFromGo matchAt s fuel start i = ([jsSlice s start s.length], []) := by
  intro fuel
  induction fuel with
  | zero => intro start i; rw [jsSplitFromGo]
  | succ fuel ih =>
    intro start i
    rw [jsSplitFromGo]
    by_cases hlt : i < s.length
    · rw [if_pos hlt, hnone i]
      exact ih start (i + 1)
    · rw [if_neg hlt]

lemma jsSplit_no_match (matchAt : JsStr → Nat → Option Nat) (s : JsStr)
    (hnone : ∀ i, matchAt s i = none) : jsSplit matchAt s = [s] := by
  unfold jsSplit jsSplitFrom
  rw [jsSplitFromGo_no_match matchAt s hnone _ 0 0]
  simp [jsSlice]

lemma wsRunLenGo_spec (s : JsStr) : ∀ (fuel i0 : Nat),
    ∀ m < wsRunLenGo s fuel i0, i0 + m < s.length ∧ isJsWs (s.getD (i0 + m) 0) = true := by
  intro fuel
  induction fuel with
  | zero =>
    intro i0 m hm
    rw [wsRunLenGo] at hm
    omega
  | succ fuel ih =>
    intro i0 m hm
    rw [wsRunLenGo] at hm
    by_cases hc : i0 < s.length ∧ isJsWs (s.getD i0 0)
    · rw [if_pos hc] at hm
      cases m with
      | zero => simpa using hc
      | succ m' =>
        have := ih (i0 + 1) m' (by omega)
        constructor
        · omega
        · have harith : i0 + (m' + 1) = i0 + 1 + m' := by omega
          rw [harith]
          exact this.2
    · rw [if_neg hc] at hm
      omega

lemma wsRunLen_spec (s : JsStr) (i0 : Nat) :
    ∀ m < wsRunLen s i0, i0 + m < s.length ∧ isJsWs (s.getD (i0 + m) 0) = true :=
  wsRunLenGo_spec s (s.length + 1 - i0) i0

/-- A blank-line separator in a string: two newlines with only whitespace
between them (this is exactly where `/\n\s*\n+/` can match). -/
def hasBlankPair (s : JsStr) : Prop :=
  ∃ i j, i < j ∧ j < s.length ∧ s.getD i 0 = 10 ∧ s.getD j 0 = 10 ∧
    ∀ m, i < m → m < j → isJsWs (s.getD m 0) = true

lemma matchBlankSep_some_pair {s : JsStr} {i l : Nat}
    (h : matchBlankSep s i = some l) : hasBlankPair s := by
  unfold matchBlankSep at h
  by_cases hc : i < s.length ∧ s.getD i 0 = 10
  · rw [if_pos hc] at h
    simp only at h
    cases hlast : ((List.range (wsRunLen s (i + 1))).filter
        (fun k => s.getD (i + 1 + k) 0 == 10)).getLast? with
    | none => rw [hlast] at h; exact Option.noConfusion h
    | some k =>
      rw [hlast] at h
      have hkmem : k ∈ (List.range (wsRunLen s (i + 1))).filter
          (fun k => s.getD (i + 1 + k) 0 == 10) := List.mem_of_mem_getLast? hlast
      rw [List.mem_filter, List.mem_range] at hkmem
      obtain ⟨hkr, hk10⟩ := hkmem
      have hspec := wsRunLen_spec s (i + 1)
      refine ⟨i, i + 1 + k, by omega, (hspec k hkr).1, hc.2, by simpa using hk10, ?_⟩
      intro m him hmk
      have : m = (i + 1) + (m - i - 1) := by omega
      rw [this]
      exact (hspec (m - i - 1) (by omega)).2
  · rw [if_neg hc] at h
    exact Option.noConfusion h

lemma hasBlankPair_mono {t s : JsStr} (hinf : t <:+: s) (h : hasBlankPair t) :
    hasBlankPair s := by
  obtain ⟨u, v, rfl⟩ := hinf
  obtain ⟨i, j, hij, hjlen, hi10, hj10, hmid⟩ := h
  have hget : ∀ m, m < t.length → (u ++ t ++ v).getD (u.length + m) 0 = t.getD m 0 := by
    intro m hm
    rw [List.getD_eq_getElem?_getD, List.getD_eq_getElem?_getD]
    rw [List.getElem?_append_left (by simp; omega)]
    rw [List.getElem?_append_right (by omega)]
    have harith : u.length + m - u.length = m := by omega
    rw [harith]
  refine ⟨u.length + i, u.length + j, by omega, by simp; omega, ?_, ?_, ?_⟩
  · rw [hget i (by omega)]; exact hi10
  · rw [hget j hjlen]; exact hj10
  · intro m him hmj
    have : m = u.length + (m - u.length) := by omega
    rw [this, hget (m - u.length) (by omega)]
    exact hmid (m - u.length) (by omega) (by omega)

lemma jsTrim_eq_rdrop (s : JsStr) :
    jsTrim s = List.rdropWhile isJsWs (List.dropWhile isJsWs s) := rfl

lemma jsTrim_infix_self (s : JsStr) : jsTrim s <:+: s := by
  rw [jsTrim_eq_rdrop]
  exact (List.rdropWhile_prefix _ _).isInfix.trans (List.dropWhile_suffix _).isInfix

lemma jsTrim_idem (s : JsStr) : jsTrim (jsTrim s) = jsTrim s := by
  rw [jsTrim_eq_rdrop, jsTrim_eq_rdrop]
  have h1 : List.dropWhile isJsWs (List.rdropWhile isJsWs (List.dropWhile isJsWs s)) =
      List.rdropWhile isJsWs (List.dropWhile isJsWs s) := by
    rw [List.dropWhile_eq_self_iff]
    intro hl
    obtain ⟨r, hr⟩ := List.rdropWhile_prefix isJsWs (List.dropWhile isJsWs s)
    have hl' : 0 < (List.dropWhile isJsWs s).length := by
      rw [← hr]
      simp only [List.length_append]
      omega
    have hhead : (List.dropWhile isJsWs s).get ⟨0, hl'⟩ =
        (List.rdropWhile isJsWs (List.dropWhile isJsWs s)).get ⟨0, hl⟩ := by
      have h0 : (List.dropWhile isJsWs s)[0]? =
          (List.rdropWhile isJsWs (List.dropWhile isJsWs s))[0]? := by
        conv_lhs => rw [← hr]
        exact List.getElem?_append_left hl
      rw [List.getElem?_eq_getElem hl', List.getElem?_eq_getElem hl] at h0
      simpa using h0
    have hnot := List.dropWhile_get_zero_not isJsWs s hl'
    rw [hhead] at hnot
    exact hnot
  rw [h1, List.rdropWhile_idempotent]

lemma noBlank_trim (s : JsStr) (hnb : ¬ hasBlankPair s) :
    ∀ i, matchBlankSep (jsTrim s) i = none := by
  intro i
  cases h : matchBlankSep (jsTrim s) i with
  | none => rfl
  | some l =>
    exact absurd (hasBlankPair_mono (jsTrim_infix_self s) (matchBlankSep_some_pair h)) hnb

/-- C3 (amended): for a string of length at most 300 whose trimmed form is
non-empty, that contains no blank-line separator, and in which the sentence
splitter finds no split point, `chunkText` returns the single-element list
`[s.trim()]`. (A whitespace-only string yields `[]`, and a multi-character
whitespace run at an interior sentence boundary is re-joined with a single
space, so the claim fails without these provisos.) -/
theorem chunkText_single (s : JsStr) (hlen : s.length ≤ 300)
    (hne : jsTrim s ≠ []) (hnb : ¬ hasBlankPair s)
    (hns : ∀ i, matchSentenceSep (jsTrim s) i = none) :
    chunkText s 300 = [jsTrim s] := by
  have hpar : jsSplit matchBlankSep (jsTrim s) = [jsTrim s] :=
    jsSplit_no_match _ _ (noBlank_trim s hnb)
  have hsent : jsSplit matchSentenceSep (jsTrim (jsTrim s)) = [jsTrim s] := by
    rw [jsTrim_idem]
    exact jsSplit_no_match _ _ hns
  have hpos : 0 < (jsTrim (jsTrim s)).length := by
    rw [jsTrim_idem]
    exact List.length_pos.mpr hne
  unfold chunkText
  rw [hpar]
  have hfil : ([jsTrim s].filter (fun p => decide (0 < (jsTrim p).length))) = [jsTrim s] := by
    simp only [List.filter]
    rw [decide_eq_true hpos]
  rw [hfil]
  simp only [List.foldl_cons, List.foldl_nil]
  rw [if_neg (by omega), hsent]
  simp only [List.foldl_cons, List.foldl_nil, List.length_nil]
  have hne0 : (jsTrim s).length ≠ 0 := by
    intro h0
    exact hne (List.length_eq_zero.mp h0)
  by_cases hfit : 0 + (jsTrim s).length + 1 ≤ 300
  · rw [if_pos hfit]
    rw [if_neg (show ¬ ((0 : Nat) ≠ 0) by omega)]
    simp only [List.nil_append]
    rw [if_pos hne0, jsTrim_idem]
  · rw [if_neg hfit]
    rw [if_neg (show ¬ ((0 : Nat) ≠ 0) by omega)]
    rw [if_pos hne0, jsTrim_idem]
    simp

/-- Counterexample to C3 as stated: a whitespace-only string is dropped
entirely (`chunk(" ") = [] ≠ [""]`), and a double space after a sentence end is
re-joined with a single space (`chunk("Hi.  There") = ["Hi. There"]`, not
`["Hi.  There"]`), although both inputs are short and blank-line free. -/
theorem chunkText_single_counterexample :
    chunkText [32] 300 = [] ∧ chunkText [32] 300 ≠ [jsTrim [32]] ∧
    chunkText (strUnits "Hi.  There") 300 = [strUnits "Hi. There"] ∧
    chunkText (strUnits "Hi.  There") 300 ≠ [jsTrim (strUnits "Hi.  There")] := by
  refine ⟨by decide, by decide, by decide, by decide⟩

/-- Bounded (executable) form of `hasBlankPair`. -/
def hasBlankPairB (s : JsStr) : Bool :=
  (List.range s.length).any (fun j => (List.range j).any (fun i =>
    s.getD i 0 == 10 && s.getD j 0 == 10 &&
    (List.range (j - i - 1)).all (fun m => isJsWs (s.getD (i + 1 + m) 0))))

lemma hasBlankPair_toB (s : JsStr) (h : hasBlankPair s) : hasBlankPairB s = true := by
  obtain ⟨i, j, hij, hjlen, hi10, hj10, hmid⟩ := h
  unfold hasBlankPairB
  rw [List.any_eq_true]
  refine ⟨j, List.mem_range.mpr hjlen, ?_⟩
  rw [List.any_eq_true]
  refine ⟨i, List.mem_range.mpr hij, ?_⟩
  simp only [Bool.and_eq_true, beq_iff_eq, List.all_eq_true]
  refine ⟨⟨hi10, hj10⟩, ?_⟩
  intro m hm
  rw [List.mem_range] at hm
  exact hmid (i + 1 + m) (by omega) (by omega)

lemma matchSentenceSep_oob (s : JsStr) (i : Nat) (h : s.length ≤ i) :
    matchSentenceSep s i = none := by
  unfold matchSentenceSep
  rw [if_neg]
  intro hc
  omega

lemma noSentenceSplit_of_all (t : JsStr)
    (hb : (List.range t.length).all (fun i => (matchSentenceSep t i).isNone) = true) :
    ∀ i, matchSentenceSep t i = none := by
  intro i
  by_cases hi : i < t.length
  · have := List.all_eq_true.mp hb i (List.mem_range.mpr hi)
    exact Option.isNone_iff_eq_none.mp this
  · exact matchSentenceSep_oob t i (by omega)

/-- Witness for the amended C3 on `"Hello world"`. -/
theorem chunkText_single_witness :
    chunkText (strUnits "Hello world") 300 = [jsTrim (strUnits "Hello world")] :=
  chunkText_single (strUnits "Hello world") (by decide) (by decide)
    (fun h => absurd (hasBlankPair_toB _ h) (by decide))
    (noSentenceSplit_of_all _ (by decide))

lemma callFold_acc (tts : TextToSpeech) (style : Style) (totalStep : Int)
    (speed silenceDuration : Rat) :
    ∀ (rest : List JsStr) (w : List Rat) (d : Rat) (log : List MCall), w ≠ [] →
    ∃ log2, rest.foldl
      (fun (acc : List Rat × Rat × List MCall) chunk =>
        let out := tts.infer [chunk] style totalStep speed
        if acc.1.length = 0 then
          (out.wav, out.duration.getD 0 0, acc.2.2 ++ out.log)
        else
          let silenceLen := (Int.floor (silenceDuration * (tts.sampleRate : Rat))).toNat
          (acc.1 ++ List.replicate silenceLen 0 ++ out.wav,
           acc.2.1 + out.duration.getD 0 0 + silenceDuration,
           acc.2.2 ++ out.log)) (w, d, log) =
      (w ++ (rest.map (fun ch => List.replicate
          ((Int.floor (silenceDuration * (tts.sampleRate : Rat))).toNat) (0 : Rat) ++
          (tts.infer [ch] style totalStep speed).wav)).flatten,
       d + (rest.map (fun ch =>
          (tts.infer [ch] style totalStep speed).duration.getD 0 0)).sum +
         rest.length * silenceDuration,
       log2) := by
  intro rest
  induction rest with
  | nil =>
    intro w d log hw
    exact ⟨log, by simp⟩
  | cons ch rest ih =>
    intro w d log hw
    rw [List.foldl_cons]
    simp only
    rw [if_neg (by simpa using hw)]
    obtain ⟨log2, hlog⟩ := ih
      (w ++ List.replicate ((Int.floor (silenceDuration * (tts.sampleRate : Rat))).toNat) 0 ++
        (tts.infer [ch] style totalStep speed).wav)
      (d + (tts.infer [ch] style totalStep speed).duration.getD 0 0 + silenceDuration)
      (log ++ (tts.infer [ch] style totalStep speed).log)
      (by simp [hw])
    refine ⟨log2, ?_⟩
    rw [hlog]
    refine Prod.ext ?_ (Prod.ext ?_ rfl)
    · simp [List.append_assoc]
    · simp only [List.map_cons, List.sum_cons, List.length_cons]
      push_cast
      ring

/-- C4 (amended): the per-chunk reported duration is the duration-predictor
output divided by `speed`; and when the text chunks into `1 + rest.length`
parts and the first chunk's synthesized waveform is non-empty, `call`
concatenates the first chunk's waveform as-is, prepends
`⌊silenceDuration · sample_rate⌋` zero samples before each remaining chunk's
waveform, and reports a total duration equal to the sum of per-chunk durations
plus `silenceDuration` for each of the `rest.length` gaps. (When the running
concatenation is still empty — which the non-empty first waveform rules out —
the code takes the first-chunk branch again and overwrites the accumulated
duration, so the claim fails without this proviso.) -/
theorem call_concatenation (tts : TextToSpeech) (text : JsStr) (style : Style)
    (totalStep : Int) (speed silenceDuration : Rat) (c : JsStr) (rest : List JsStr)
    (hstyle : style.ttl.dims.headD 0 = 1)
    (hchunks : chunkText text 300 = c :: rest)
    (hfirst : (tts.infer [c] style totalStep speed).wav ≠ []) :
    (∀ L : List JsStr, (tts.infer L style totalStep speed).duration =
      (tts.mods.durationPredictor (tts.textProcessor.call L).1 style.dp
        (tts.textProcessor.call L).2).map (fun x => x / speed)) ∧
    (tts.call text style totalStep speed silenceDuration).1 = Except.ok
      ⟨(tts.infer [c] style totalStep speed).wav ++
        (rest.map (fun ch => List.replicate
          ((Int.floor (silenceDuration * (tts.sampleRate : Rat))).toNat) (0 : Rat) ++
          (tts.infer [ch] style totalStep speed).wav)).flatten,
       [((c :: rest).map (fun ch =>
           (tts.infer [ch] style totalStep speed).duration.getD 0 0)).sum +
        rest.length * silenceDuration]⟩ := by
  constructor
  · intro L
    rfl
  · unfold TextToSpeech.call
    rw [if_neg (by rw [hstyle]; omega), hchunks]
    simp only [List.foldl_cons, List.length_nil, if_true]
    obtain ⟨log2, hlog⟩ := callFold_acc tts style totalStep speed silenceDuration rest
      (tts.infer [c] style totalStep speed).wav
      ((tts.infer [c] style totalStep speed).duration.getD 0 0)
      ([] ++ (tts.infer [c] style totalStep speed).log) hfirst
    rw [hlog]
    simp only [List.map_cons, List.sum_cons]

/-- A pipeline whose vocoder returns an empty waveform (used to exhibit the
empty-first-chunk edge case of `TextToSpeech.call`). -/
def mods1 : Modules := ⟨fun _ _ _ => [1], fun _ _ _ => [], fun _ => [], fun _ => []⟩

def tts1 : TextToSpeech := ⟨cfg0, proc0, mods1, fun _ _ _ => 0⟩

/-- Witness for the amended C4 on a two-chunk text with non-empty waveforms. -/
theorem call_concatenation_witness :
    (∀ L : List JsStr, (tts0.infer L style1 1 1).duration =
      (tts0.mods.durationPredictor (tts0.textProcessor.call L).1 style1.dp
        (tts0.textProcessor.call L).2).map (fun x => x / 1)) ∧
    (tts0.call (strUnits "A.\n\nB.") style1 1 1 (3 / 10)).1 = Except.ok
      ⟨(tts0.infer [strUnits "A."] style1 1 1).wav ++
        (([strUnits "B."]).map (fun ch => List.replicate
          ((Int.floor ((3 / 10 : Rat) * (tts0.sampleRate : Rat))).toNat) (0 : Rat) ++
          (tts0.infer [ch] style1 1 1).wav)).flatten,
       [((strUnits "A." :: [strUnits "B."]).map (fun ch =>
           (tts0.infer [ch] style1 1 1).duration.getD 0 0)).sum +
        ([strUnits "B."] : List JsStr).length * (3 / 10 : Rat)]⟩ :=
  call_concatenation tts0 (strUnits "A.\n\nB.") style1 1 1 (3 / 10)
    (strUnits "A.") [strUnits "B."] (by decide) (by decide) (by decide)

/-- Counterexample to C4 as stated: with a vocoder producing empty waveforms,
the text `"A.\n\nB."` chunks into two parts each of reported duration 1, yet
`call` reports a total duration of 1 — the second chunk re-enters the
first-chunk branch (`wavCat.length === 0`) and overwrites the accumulator —
while the claim demands `1 + 1 + 0.3`. -/
theorem call_concatenation_counterexample :
    (tts1.call (strUnits "A.\n\nB.") style1 1 1 (3 / 10)).1 =
      Except.ok ⟨[], [1]⟩ ∧ (1 : Rat) ≠ 1 + 1 + 3 / 10 := by
  constructor
  · unfold TextToSpeech.call
    rw [if_neg (by decide),
      show chunkText (strUnits "A.\n\nB.") 300 = [strUnits "A.", strUnits "B."] from by decide]
    simp only [List.foldl_cons, List.foldl_nil, List.length_nil, if_true]
    have hwavA : (tts1.infer [strUnits "A."] style1 1 1).wav = [] := rfl
    rw [hwavA]
    simp only [List.length_nil, if_true]
    have hdur : (tts1.infer [strUnits "B."] style1 1 1).duration.getD 0 0 = 1 := by
      show (1 : Rat) / 1 = 1
      exact div_one 1
    have hwavB : (tts1.infer [strUnits "B."] style1 1 1).wav = [] := rfl
    rw [hdur, hwavB]
  · norm_num

lemma writeBytesAt_length : ∀ (bytes buf : List Nat) (o : Nat),
    (writeBytesAt buf o bytes).length = buf.length := by
  intro bytes
  induction bytes with
  | nil => intro buf o; rfl
  | cons b rest ih =>
    intro buf o
    rw [writeBytesAt, ih]
    simp

lemma writeWavSamples_length : ∀ (data : List Rat) (buf : List Nat) (base : Nat),
    (writeWavSamples buf base data).length = buf.length := by
  intro data
  induction data with
  | nil => intro buf base; rfl
  | cons s rest ih =>
    intro buf base
    rw [writeWavSamples, ih, writeBytesAt_length]

lemma writeWavToBuffer_length (audioData : List Rat) (sampleRate : Nat) :
    (writeWavToBuffer audioData sampleRate).length = 44 + audioData.length * 16 / 8 := by
  unfold writeWavToBuffer
  rw [writeWavSamples_length]
  simp only [writeBytesAt_length]
  simp

/-- C9: for an input text that is empty or whitespace-only after trimming (and
a valid single-speaker style), the chunker returns the empty list, no inference
module is invoked (the log is empty), and `synthesize` succeeds with
`durationSeconds = 0` and a 44-byte WAV buffer holding zero samples. -/
theorem synthesize_empty_text (tts : TextToSpeech) (style : Style)
    (options : SynthesizeOptions)
    (htrim : jsTrim options.text = [])
    (hstyle : style.ttl.dims.headD 0 = 1) :
    chunkText options.text 300 = [] ∧
    synthesize tts style options =
      (Except.ok ⟨writeWavToBuffer [] tts.sampleRate, tts.sampleRate, 0⟩, []) ∧
    (writeWavToBuffer [] tts.sampleRate).length = 44 := by
  have hchunk : chunkText options.text 300 = [] := by
    unfold chunkText
    rw [htrim]
    rfl
  have hcall : tts.call options.text style options.totalStep options.speed
      (options.silenceDurationSeconds.getD (3 / 10)) = (Except.ok ⟨[], [0]⟩, []) := by
    unfold TextToSpeech.call
    rw [if_neg (by rw [hstyle]; omega), hchunk]
    rfl
  have hsyn : synthesize tts style options =
      match tts.call options.text style options.totalStep options.speed
        (options.silenceDurationSeconds.getD (3 / 10)) with
      | (Except.error e, log) => (Except.error e, log)
      | (Except.ok r, log) =>
        (Except.ok (SynthesisResult.mk (writeWavToBuffer (jsSliceTo r.wav
            (Int.floor ((tts.sampleRate : Rat) * r.duration.getD 0 0))) tts.sampleRate)
          tts.sampleRate (r.duration.getD 0 0)), log) := rfl
  have hslice : ∀ e : Int, jsSliceTo [] e = [] := by
    intro e
    unfold jsSliceTo
    split <;> simp
  refine ⟨hchunk, ?_, ?_⟩
  · rw [hsyn, hcall]
    show (Except.ok (SynthesisResult.mk (writeWavToBuffer (jsSliceTo []
        (Int.floor ((tts.sampleRate : Rat) * (([0] : List Rat).getD 0 0)))) tts.sampleRate)
      tts.sampleRate (([0] : List Rat).getD 0 0)), ([] : List MCall)) = _
    rw [hslice]
    rfl
  · rw [writeWavToBuffer_length]
    rfl

/-- Witness for C9 on a whitespace-only input. -/
theorem synthesize_empty_text_witness :
    chunkText (([32] : JsStr)) 300 = [] ∧
    synthesize tts0 style1 ⟨[32], 5, 1, none⟩ =
      (Except.ok ⟨writeWavToBuffer [] tts0.sampleRate, tts0.sampleRate, 0⟩, []) ∧
    (writeWavToBuffer [] tts0.sampleRate).length = 44 :=
  synthesize_empty_text tts0 style1 ⟨[32], 5, 1, none⟩ (by decide) (by decide)
